import Mathlib

/-!
Shallow embedding of the mortgage-backed-security simulator `mbs_sim.py`.

Real-valued quantities of the program are modelled as real numbers; the
single uniform random draw consumed by a live loan each month is passed in
explicitly as an argument `u`, and the pool/path level functions receive a
stream of such draws.  Python's in-place mutation is modelled by explicit
state passing: every operation returns the updated record(s) together with
the cashflow values it produces.
-/

namespace MbsSim

/-- The fixed epsilon threshold `1e-9` used by every near-zero balance
comparison in the program. -/
noncomputable def eps : ℝ := 1 / 10 ^ 9

/-- The `Mortgage` dataclass: one plain-vanilla fixed-rate mortgage. -/
structure Mortgage where
  balance : ℝ
  rate : ℝ
  term : ℤ
  remaining : ℤ
  payment : ℝ
  alive : Bool

/-- The denominator `1 - (1 + monthly_rate) ** (-term_months)` of the
annuity formula used by `Mortgage.create`. -/
noncomputable def annuityDenom (rate : ℝ) (termMonths : ℤ) : ℝ :=
  1 - (1 + rate / 12) ^ (-termMonths)

/-- `Mortgage.create`: build a fully-amortizing loan and compute its level
monthly payment by the annuity formula
`payment = principal * monthly_rate / (1 - (1 + monthly_rate) ** (-term))`.
The result is `none` exactly when Python raises `ZeroDivisionError`: when
the annuity denominator is zero, or when the base `1 + monthly_rate` is
zero and the exponent `-term` is negative. -/
noncomputable def Mortgage.create (principal rate : ℝ) (termMonths : ℤ) :
    Option Mortgage :=
  if (1 + rate / 12 = 0 ∧ 0 < termMonths) ∨ annuityDenom rate termMonths = 0 then
    none
  else
    some { balance := principal, rate := rate, term := termMonths,
           remaining := termMonths,
           payment := principal * (rate / 12) / annuityDenom rate termMonths,
           alive := true }

/-- The cashflow dictionary returned by `Mortgage.step`. -/
structure Cashflow where
  interest : ℝ
  principal : ℝ
  loss : ℝ

/-- Compound conversion of an annualized rate to its monthly equivalent:
`1 - (1 - annual) ** (1 / 12)`. -/
noncomputable def monthlyHazard (annual : ℝ) : ℝ :=
  1 - (1 - annual) ^ ((1 : ℝ) / 12)

/-- `Mortgage.step`: advance one month.  `u` is the uniform random draw
`random.random()` consumed by the default trial of a live loan.  Returns
the updated loan together with the month's cashflow. -/
noncomputable def Mortgage.step (m : Mortgage) (u cpr cdr recovery : ℝ) :
    Mortgage × Cashflow :=
  if m.alive = false ∨ m.balance ≤ eps then
    (m, ⟨0, 0, 0⟩)
  else
    let monthlyDefault := monthlyHazard cdr
    let monthlyPrepay := monthlyHazard cpr
    let interest := m.balance * (m.rate / 12)
    let scheduledPrincipal := min (m.payment - interest) m.balance
    if u < monthlyDefault then
      let cashRecovered := m.balance * recovery
      let creditLoss := m.balance - cashRecovered
      ({ m with balance := 0, alive := false }, ⟨0, cashRecovered, creditLoss⟩)
    else
      let prepayAmount := (m.balance - scheduledPrincipal) * monthlyPrepay
      let totalPrincipal := min m.balance (scheduledPrincipal + prepayAmount)
      let newBalance := m.balance - totalPrincipal
      let newRemaining := m.remaining - 1
      let newAlive : Bool := if newRemaining ≤ 0 ∨ newBalance ≤ eps then false else m.alive
      ({ m with balance := newBalance, remaining := newRemaining, alive := newAlive },
       ⟨interest, totalPrincipal, 0⟩)

/-- The `Tranche` dataclass: one capital-structure slice. -/
structure Tranche where
  name : String
  balance : ℝ
  coupon : ℝ

/-- Recursive worker for `allocate_losses`: the Python loop
`for tr in reversed(tranches): ...` operates on the reversed list, so this
worker receives the tranches least-senior first.  It returns the remaining
unallocated loss together with the updated (still reversed) list; a `break`
fires as soon as the remaining loss is `≤ eps`, leaving the tail untouched. -/
noncomputable def allocLossRev : ℝ → List Tranche → ℝ × List Tranche
  | loss, [] => (loss, [])
  | loss, tr :: rest =>
    let hit := min tr.balance loss
    let tr2 : Tranche := { tr with balance := tr.balance - hit }
    let loss2 := loss - hit
    if loss2 ≤ eps then (loss2, tr2 :: rest)
    else
      let r := allocLossRev loss2 rest
      (r.1, tr2 :: r.2)

/-- `allocate_losses`: apply credit losses bottom-up (least senior tranche
first), as the Python function does by iterating `reversed(tranches)`. -/
noncomputable def allocate_losses (loss : ℝ) (tranches : List Tranche) :
    List Tranche :=
  ((allocLossRev loss tranches.reverse).2).reverse

/-- The interest leg of the waterfall in `price_single_path`: iterate the
tranches most senior first; each tranche is due `balance * coupon / 12`
and is paid `min(due, interest_available)` from the shared pool.  Returns
the interest cash left unconsumed together with the list `interest_paid`.
Tranche balances are not modified by this leg. -/
noncomputable def allocInterest : ℝ → List Tranche → ℝ × List ℝ
  | avail, [] => (avail, [])
  | avail, tr :: rest =>
    let due := tr.balance * tr.coupon / 12
    let paid := min due avail
    let r := allocInterest (avail - paid) rest
    (r.1, paid :: r.2)

/-- The principal leg of the waterfall in `price_single_path`: iterate the
tranches most senior first; each tranche receives
`min(tranche balance, principal_available)`, which reduces both its balance
and the remaining pool.  Returns the leftover pool, the updated tranches,
and the list `principal_paid`. -/
noncomputable def allocPrincipal : ℝ → List Tranche → ℝ × List Tranche × List ℝ
  | avail, [] => (avail, [], [])
  | avail, tr :: rest =>
    let pay := min tr.balance avail
    let tr2 : Tranche := { tr with balance := tr.balance - pay }
    let r := allocPrincipal (avail - pay) rest
    (r.1, tr2 :: r.2.1, pay :: r.2.2)

/-- Step every mortgage of the pool once (the inner `for mt in mortgages`
loop of `price_single_path`), summing interest, principal and loss across
the pool.  `us i` is the uniform draw consumed by the `i`-th loan. -/
noncomputable def stepPool (cpr cdr recovery : ℝ) (us : ℕ → ℝ) :
    ℕ → List Mortgage → List Mortgage × Cashflow
  | _, [] => ([], ⟨0, 0, 0⟩)
  | i, mt :: rest =>
    let s := mt.step (us i) cpr cdr recovery
    let r := stepPool cpr cdr recovery us (i + 1) rest
    (s.1 :: r.1,
     ⟨s.2.interest + r.2.interest, s.2.principal + r.2.principal, s.2.loss + r.2.loss⟩)

/-- All per-month results of one iteration of the `price_single_path`
month loop. -/
structure MonthResult where
  pool : List Mortgage
  tranches : List Tranche
  interestPaid : List ℝ
  principalPaid : List ℝ
  cashInt : ℝ
  cashPrin : ℝ
  losses : ℝ

/-- One iteration of the month loop of `price_single_path`: step every
loan, push realized losses through `allocate_losses`, pay interest
top-down, then pay principal (plus leftover interest cash) sequentially. -/
noncomputable def monthStep (cpr cdr recovery : ℝ) (us : ℕ → ℝ)
    (pool : List Mortgage) (tranches : List Tranche) : MonthResult :=
  let ps := stepPool cpr cdr recovery us 0 pool
  let trs1 := allocate_losses ps.2.loss tranches
  let ia := allocInterest ps.2.interest trs1
  let pa := allocPrincipal (ps.2.principal + ia.1) trs1
  { pool := ps.1, tranches := pa.2.1, interestPaid := ia.2,
    principalPaid := pa.2.2, cashInt := ps.2.interest,
    cashPrin := ps.2.principal, losses := ps.2.loss }

/-- The per-path state carried across months by `price_single_path`:
the working tranche copies, the mortgage pool, and the accumulated
per-tranche present values (aligned with the tranche list). -/
structure PathState where
  pool : List Mortgage
  tranches : List Tranche
  pv : List ℝ

/-- One month of `price_single_path` including the early-termination check
and present-value discounting: if no loan is alive the state is returned
unchanged (the Python loop breaks), otherwise the month's waterfall runs
and each tranche's receipt is discounted by `(1 + disc/12) ^ month`
(`month` is 1-based). -/
noncomputable def priceStep (cpr cdr recovery disc : ℝ) (us : ℕ → ℝ)
    (month : ℕ) (s : PathState) : PathState :=
  if s.pool.any (fun mt => mt.alive) then
    let r := monthStep cpr cdr recovery us s.pool s.tranches
    let df := (1 + disc / 12) ^ month
    { pool := r.pool, tranches := r.tranches,
      pv := (s.pv.zip (r.interestPaid.zip r.principalPaid)).map
              (fun p => p.1 + (p.2.1 + p.2.2) / df) }
  else s

/-- The state of `price_single_path` after its first `k` months, starting
from `init`.  `U m` is the stream of uniform draws consumed by the pool in
month `m + 1`. -/
noncomputable def runPath (cpr cdr recovery disc : ℝ) (U : ℕ → ℕ → ℝ)
    (init : PathState) : ℕ → PathState
  | 0 => init
  | k + 1 => priceStep cpr cdr recovery disc (U k) (k + 1)
      (runPath cpr cdr recovery disc U init k)

/-- `price_single_path`: run one full path over `months` months from fresh
tranche copies and a fresh pool, returning the per-tranche accumulated
present values. -/
noncomputable def price_single_path (pool : List Mortgage)
    (trancheDefs : List Tranche) (months : ℕ) (cpr cdr recovery disc : ℝ)
    (U : ℕ → ℕ → ℝ) : List ℝ :=
  (runPath cpr cdr recovery disc U
    ⟨pool, trancheDefs, List.replicate trancheDefs.length 0⟩ months).pv

/-- Iterate `Mortgage.step` on a single loan, accumulating the principal
cashflows it returns; `us k` is the draw consumed in month `k + 1`. -/
noncomputable def runLoan (cpr cdr recovery : ℝ) (us : ℕ → ℝ) (m : Mortgage) :
    ℕ → Mortgage × ℝ
  | 0 => (m, 0)
  | k + 1 =>
    let p := runLoan cpr cdr recovery us m k
    let s := p.1.step (us k) cpr cdr recovery
    (s.1, p.2 + s.2.principal)

lemma eps_pos : 0 < eps := by norm_num [eps]

/-- C6: an inert loan (alive flag false, or balance at or below the 1e-9
epsilon threshold) steps to an all-zero cashflow (interest 0, principal 0,
loss 0) and is returned with every field unchanged, for all CPR, CDR and
recovery inputs, so the inert state is absorbing. -/
theorem step_inert_frame (m : Mortgage) (u cpr cdr recovery : ℝ)
    (h : m.alive = false ∨ m.balance ≤ eps) :
    m.step u cpr cdr recovery = (m, ⟨0, 0, 0⟩) := by
  unfold Mortgage.step
  rw [if_pos h]

/-- Witness for C6 at a concrete inert loan. -/
theorem step_inert_frame_witness :
    (Mortgage.mk 0 (1 / 20) 360 0 500 false).step (1 / 2) (8 / 100) (2 / 100) (3 / 5) =
      (Mortgage.mk 0 (1 / 20) 360 0 500 false, ⟨0, 0, 0⟩) :=
  step_inert_frame _ _ _ _ _ (Or.inl rfl)

/-- C5: for a live loan above the epsilon threshold whose default trial
fires (`u < monthlyHazard cdr`), the step returns interest 0, principal
`balance * recovery` and loss `balance * (1 - recovery)`, and the loan
comes back with balance 0, alive false, and every other field (rate, term,
remaining, payment) untouched: no prepayment or scheduled amortization
happens in a default month. -/
theorem step_default_liquidation (m : Mortgage) (u cpr cdr recovery : ℝ)
    (halive : m.alive = true) (hbal : eps < m.balance)
    (hu : u < monthlyHazard cdr) :
    m.step u cpr cdr recovery =
      ({ m with balance := 0, alive := false },
        ⟨0, m.balance * recovery, m.balance * (1 - recovery)⟩) := by
  simp only [Mortgage.step]
  rw [if_neg (by simp [halive, not_le.2 hbal]), if_pos hu]
  simp only [Prod.mk.injEq, Cashflow.mk.injEq, true_and, and_true]
  ring

/-- Witness for C5: a concrete loan defaulting under CDR = 1 (whose monthly
hazard is 1) with draw 1/2. -/
theorem step_default_liquidation_witness :
    (Mortgage.mk 100 (1 / 10) 360 240 5 true).step (1 / 2) 0 1 (3 / 5) =
      (Mortgage.mk 0 (1 / 10) 360 240 5 false,
        ⟨0, 100 * (3 / 5), 100 * (1 - 3 / 5)⟩) := by
  have h := step_default_liquidation (Mortgage.mk 100 (1 / 10) 360 240 5 true)
    (1 / 2) 0 1 (3 / 5) rfl (by norm_num [eps])
    (by rw [monthlyHazard]; rw [show (1 : ℝ) - 1 = 0 by norm_num,
          Real.zero_rpow (by norm_num)]; norm_num)
  exact h

lemma create_eq_none_iff (principal rate : ℝ) (t : ℤ) :
    Mortgage.create principal rate t = none ↔
      ((1 + rate / 12 = 0 ∧ 0 < t) ∨ annuityDenom rate t = 0) := by
  unfold Mortgage.create
  split_ifs with h
  · simp [h]
  · simp [h]

/-- C8 counterexample: with positive annual rate 12 and negative term -1,
loan creation succeeds (the annuity denominator is 1 - (1 + 1)^1 = -1, not
zero), contradicting the claim that creation fails exactly when the rate
is 0 or the term is ≤ 0. -/
theorem create_negative_term_defined :
    (-1 : ℤ) ≤ 0 ∧ Mortgage.create 100 12 (-1) ≠ none := by
  refine ⟨by norm_num, ?_⟩
  rw [Ne, create_eq_none_iff]
  rintro (⟨hc, -⟩ | hd)
  · norm_num at hc
  · rw [annuityDenom] at hd
    norm_num at hd

/-- C8 amended: loan creation fails when the annual rate is 0 (any term);
for positive rate it fails exactly when the term is 0 (a negative term
yields a well-defined, if meaningless, loan); and for positive rate and
positive term it succeeds with payment given by the annuity formula
`principal * (rate/12) / (1 - (1 + rate/12) ^ (-term))`. -/
theorem create_failure_characterization (principal rate : ℝ) (t : ℤ) :
    (rate = 0 → Mortgage.create principal rate t = none) ∧
    (0 < rate → (Mortgage.create principal rate t = none ↔ t = 0)) ∧
    (0 < rate → 0 < t →
      Mortgage.create principal rate t =
        some ⟨principal, rate, t, t,
          principal * (rate / 12) / (1 - (1 + rate / 12) ^ (-t)), true⟩) := by
  refine ⟨?_, ?_, ?_⟩
  · intro h0
    rw [create_eq_none_iff]
    right
    simp [annuityDenom, h0]
  · intro hr
    have hb0 : (0 : ℝ) < 1 + rate / 12 := by linarith
    rw [create_eq_none_iff]
    constructor
    · rintro (⟨hc, -⟩ | hd)
      · exact absurd hc (by linarith)
      · rw [annuityDenom] at hd
        have hpow : (1 + rate / 12) ^ (-t) = (1 + rate / 12) ^ (0 : ℤ) := by
          rw [zpow_zero]; linarith
        have h1 : 1 + rate / 12 ≠ 1 := by
          intro h1
          have : rate = 0 := by linarith
          linarith
        have := zpow_right_injective₀ hb0 h1 hpow
        omega
    · intro ht0
      right
      simp [annuityDenom, ht0]
  · intro hr ht
    have hb : (1 : ℝ) < 1 + rate / 12 := by linarith
    have hlt : (1 + rate / 12) ^ (-t) < 1 :=
      zpow_lt_one_of_neg₀ hb (by omega)
    unfold Mortgage.create
    rw [if_neg]
    · rw [annuityDenom]
    · rintro (⟨hc, -⟩ | hd)
      · linarith
      · rw [annuityDenom] at hd
        linarith

/-- Witness for C8 amended: creation with zero rate returns none, and with
positive rate and positive term it returns the annuity-formula loan. -/
theorem create_failure_characterization_witness :
    Mortgage.create 100 0 360 = none ∧ Mortgage.create 100 12 1 ≠ none := by
  constructor
  · exact (create_failure_characterization 100 0 360).1 rfl
  · intro hn
    have h1 := ((create_failure_characterization 100 12 1).2.1 (by norm_num)).mp hn
    norm_num at h1

/-- C3: after any principal allocation (each tranche receiving
`min(tranche balance, remaining principal pool)`, iterated most senior to
least senior), a tranche at position `j + 1 > 0` received a nonzero payment
only if the tranche at position `j` ended with balance exactly 0 or the
principal pool was exhausted before reaching position `j + 1`. -/
theorem sequential_pay_only_if (avail : ℝ) (trs : List Tranche) (j : ℕ)
    (hj : j + 1 < (allocPrincipal avail trs).2.2.length)
    (hj1 : j < (allocPrincipal avail trs).2.1.length)
    (hpay : (allocPrincipal avail trs).2.2.get ⟨j + 1, hj⟩ ≠ 0) :
    ((allocPrincipal avail trs).2.1.get ⟨j, hj1⟩).balance = 0 ∨
      avail - ((allocPrincipal avail trs).2.2.take (j + 1)).sum = 0 := by
  induction trs generalizing avail j with
  | nil => simp [allocPrincipal] at hj
  | cons t rest ih =>
    simp only [allocPrincipal] at hj hj1 hpay ⊢
    rcases Nat.eq_zero_or_pos j with rfl | hjpos
    · by_cases hav : avail - min t.balance avail = 0
      · right
        simpa using hav
      · left
        have hple : min t.balance avail ≤ avail := min_le_right _ _
        have hlt : min t.balance avail < avail :=
          lt_of_le_of_ne hple (fun h => hav (by rw [h]; ring))
        rcases min_cases t.balance avail with ⟨hmin, -⟩ | ⟨hmin, -⟩
        · simp [hmin]
        · exact absurd hlt (by rw [hmin]; exact lt_irrefl _)
    · obtain ⟨k, rfl⟩ : ∃ k, j = k + 1 := ⟨j - 1, by omega⟩
      have hj' : k + 1 < (allocPrincipal (avail - min t.balance avail) rest).2.2.length := by
        simpa using hj
      have hj1' : k < (allocPrincipal (avail - min t.balance avail) rest).2.1.length := by
        simpa using hj1
      have hpay' : (allocPrincipal (avail - min t.balance avail) rest).2.2.get ⟨k + 1, hj'⟩ ≠ 0 := by
        simpa using hpay
      rcases ih (avail - min t.balance avail) k hj' hj1' hpay' with h0 | hex
      · left
        simpa using h0
      · right
        simp only [List.take_succ_cons, List.sum_cons]
        linarith [hex]

/-- Witness for C3: with pool 8 over senior balance 5 and junior balance 5,
the junior receives the nonzero payment 3 and the senior indeed ends at
balance exactly 0. -/
theorem sequential_pay_only_if_witness :
    ((allocPrincipal 8 [⟨"Senior", 5, 0⟩, ⟨"Junior", 5, 0⟩]).2.1.get
        ⟨0, by simp [allocPrincipal]⟩).balance = 0 ∨
      8 - ((allocPrincipal 8 [⟨"Senior", 5, 0⟩, ⟨"Junior", 5, 0⟩]).2.2.take 1).sum = 0 := by
  refine sequential_pay_only_if 8 [⟨"Senior", 5, 0⟩, ⟨"Junior", 5, 0⟩] 0
    (by simp [allocPrincipal]) (by simp [allocPrincipal]) ?_
  simp only [allocPrincipal]
  norm_num

lemma allocLossRev_length (loss : ℝ) (trs : List Tranche) :
    (allocLossRev loss trs).2.length = trs.length := by
  induction trs generalizing loss with
  | nil => rfl
  | cons tr rest ih =>
    simp only [allocLossRev]
    split_ifs
    · simp
    · simp [ih]

lemma allocate_losses_length (loss : ℝ) (trs : List Tranche) :
    (allocate_losses loss trs).length = trs.length := by
  simp [allocate_losses, allocLossRev_length]

lemma allocLossRev_cons_break (loss : ℝ) (tr : Tranche) (rest : List Tranche)
    (h : loss - min tr.balance loss ≤ eps) :
    allocLossRev loss (tr :: rest) =
      (loss - min tr.balance loss,
        ⟨tr.name, tr.balance - min tr.balance loss, tr.coupon⟩ :: rest) := by
  simp only [allocLossRev]
  rw [if_pos h]

lemma allocLossRev_cons_go (loss : ℝ) (tr : Tranche) (rest : List Tranche)
    (h : ¬loss - min tr.balance loss ≤ eps) :
    allocLossRev loss (tr :: rest) =
      ((allocLossRev (loss - min tr.balance loss) rest).1,
        ⟨tr.name, tr.balance - min tr.balance loss, tr.coupon⟩ ::
          (allocLossRev (loss - min tr.balance loss) rest).2) := by
  simp only [allocLossRev]
  rw [if_neg h]

lemma allocLossRev_sum (loss : ℝ) (trs : List Tranche) :
    ((allocLossRev loss trs).2.map Tranche.balance).sum =
      (trs.map Tranche.balance).sum - (loss - (allocLossRev loss trs).1) := by
  induction trs generalizing loss with
  | nil => simp [allocLossRev]
  | cons tr rest ih =>
    simp only [allocLossRev]
    split_ifs with h
    · simp only [List.map_cons, List.sum_cons]
      ring
    · simp only [List.map_cons, List.sum_cons, ih]
      ring

lemma allocLossRev_rem_nonneg (loss : ℝ) (trs : List Tranche) (h : 0 ≤ loss) :
    0 ≤ (allocLossRev loss trs).1 := by
  induction trs generalizing loss with
  | nil => simpa [allocLossRev]
  | cons tr rest ih =>
    by_cases hbr : loss - min tr.balance loss ≤ eps
    · rw [allocLossRev_cons_break loss tr rest hbr]
      have h2 := min_le_right tr.balance loss
      show 0 ≤ loss - min tr.balance loss
      linarith
    · rw [allocLossRev_cons_go loss tr rest hbr]
      exact ih _ (by linarith [min_le_right tr.balance loss])

lemma allocLossRev_rem_le_eps (loss : ℝ) (trs : List Tranche)
    (hb : ∀ t ∈ trs, 0 ≤ t.balance)
    (hle : loss ≤ (trs.map Tranche.balance).sum) :
    (allocLossRev loss trs).1 ≤ eps := by
  induction trs generalizing loss with
  | nil =>
    simp only [List.map_nil, List.sum_nil] at hle
    simpa [allocLossRev] using le_trans hle eps_pos.le
  | cons tr rest ih =>
    simp only [allocLossRev]
    split_ifs with hbr
    · simpa using hbr
    · push_neg at hbr
      have hhit : min tr.balance loss = tr.balance := by
        rcases min_cases tr.balance loss with ⟨h1, -⟩ | ⟨h1, -⟩
        · exact h1
        · exfalso
          rw [h1] at hbr
          have := eps_pos
          linarith
      apply ih
      · exact fun t ht => hb t (List.mem_cons_of_mem _ ht)
      · simp only [List.map_cons, List.sum_cons] at hle
        rw [hhit]
        linarith

lemma allocLossRev_prefix_zero (loss : ℝ) (trs : List Tranche)
    (j : ℕ) (hj : j < (allocLossRev loss trs).2.length) (hj2 : j < trs.length)
    (hne : ((allocLossRev loss trs).2.get ⟨j, hj⟩).balance ≠
      (trs.get ⟨j, hj2⟩).balance) :
    ∀ i (hi : i < (allocLossRev loss trs).2.length), i < j →
      ((allocLossRev loss trs).2.get ⟨i, hi⟩).balance = 0 := by
  induction trs generalizing loss j with
  | nil => simp [allocLossRev] at hj2
  | cons tr rest ih =>
    rcases Nat.eq_zero_or_pos j with rfl | hjpos
    · intro i hi hij
      omega
    · obtain ⟨k, rfl⟩ : ∃ k, j = k + 1 := ⟨j - 1, by omega⟩
      by_cases hbr : loss - min tr.balance loss ≤ eps
      · exfalso
        apply hne
        simp only [List.get_eq_getElem, allocLossRev_cons_break loss tr rest hbr,
          List.getElem_cons_succ]
      · have hhit : min tr.balance loss = tr.balance := by
          rcases min_cases tr.balance loss with ⟨h1, -⟩ | ⟨h1, -⟩
          · exact h1
          · exfalso
            rw [h1] at hbr
            have := eps_pos
            push_neg at hbr
            linarith
        intro i hi hij
        rcases Nat.eq_zero_or_pos i with rfl | hipos
        · simp only [List.get_eq_getElem, allocLossRev_cons_go loss tr rest hbr,
            List.getElem_cons_zero, hhit]
          ring
        · obtain ⟨i2, rfl⟩ : ∃ i2, i = i2 + 1 := ⟨i - 1, by omega⟩
          have hj' : k < (allocLossRev (loss - min tr.balance loss) rest).2.length := by
            have h2 := hj
            simp only [allocLossRev_cons_go loss tr rest hbr, List.length_cons] at h2
            omega
          have hj2' : k < rest.length := by simpa using hj2
          have hne' : ((allocLossRev (loss - min tr.balance loss) rest).2.get ⟨k, hj'⟩).balance ≠
              (rest.get ⟨k, hj2'⟩).balance := by
            intro he
            apply hne
            simp only [List.get_eq_getElem] at he ⊢
            simp only [allocLossRev_cons_go loss tr rest hbr, List.getElem_cons_succ]
            exact he
          have hi' : i2 < (allocLossRev (loss - min tr.balance loss) rest).2.length := by
            have h2 := hi
            simp only [allocLossRev_cons_go loss tr rest hbr, List.length_cons] at h2
            omega
          have hres := ih (loss - min tr.balance loss) k hj' hj2' hne' i2 hi' (by omega)
          simp only [List.get_eq_getElem] at hres ⊢
          simp only [allocLossRev_cons_go loss tr rest hbr, List.getElem_cons_succ]
          exact hres

lemma balance_get_congr (l : List Tranche) {i j : ℕ} (hi : i < l.length)
    (hj : j < l.length) (hij : i = j) :
    (l.get ⟨i, hi⟩).balance = (l.get ⟨j, hj⟩).balance := by
  subst hij
  rfl

lemma allocate_losses_senior_only_if (loss : ℝ) (trs : List Tranche)
    (hlen : 0 < trs.length) (hlen2 : 0 < (allocate_losses loss trs).length)
    (hne : ((allocate_losses loss trs).get ⟨0, hlen2⟩).balance ≠
      (trs.get ⟨0, hlen⟩).balance)
    (i : ℕ) (hi : i < (allocate_losses loss trs).length) (hipos : 0 < i) :
    ((allocate_losses loss trs).get ⟨i, hi⟩).balance = 0 := by
  have hRL : (allocLossRev loss trs.reverse).2.length = trs.length := by
    rw [allocLossRev_length, List.length_reverse]
  have hAL : (allocate_losses loss trs).length = trs.length :=
    allocate_losses_length loss trs
  have hj : trs.length - 1 < (allocLossRev loss trs.reverse).2.length := by omega
  have hj2 : trs.length - 1 < trs.reverse.length := by
    rw [List.length_reverse]
    omega
  have eA : ((allocate_losses loss trs).get ⟨0, hlen2⟩).balance =
      ((allocLossRev loss trs.reverse).2.get ⟨trs.length - 1, hj⟩).balance := by
    simp only [allocate_losses, List.get_eq_getElem, List.getElem_reverse]
    all_goals exact balance_get_congr _ _ hj (by omega)
  have eB : (trs.reverse.get ⟨trs.length - 1, hj2⟩).balance =
      (trs.get ⟨0, hlen⟩).balance := by
    simp only [List.get_eq_getElem, List.getElem_reverse]
    all_goals exact balance_get_congr _ _ hlen (by omega)
  have hne2 : ((allocLossRev loss trs.reverse).2.get ⟨trs.length - 1, hj⟩).balance ≠
      (trs.reverse.get ⟨trs.length - 1, hj2⟩).balance := by
    intro he
    exact hne (by rw [eA, he, eB])
  have hidx : (allocLossRev loss trs.reverse).2.length - 1 - i <
      (allocLossRev loss trs.reverse).2.length := by omega
  have key := allocLossRev_prefix_zero loss trs.reverse (trs.length - 1) hj hj2 hne2
    ((allocLossRev loss trs.reverse).2.length - 1 - i) hidx (by omega)
  have eC : ((allocate_losses loss trs).get ⟨i, hi⟩).balance =
      ((allocLossRev loss trs.reverse).2.get
        ⟨(allocLossRev loss trs.reverse).2.length - 1 - i, hidx⟩).balance := by
    simp only [allocate_losses, List.get_eq_getElem, List.getElem_reverse]
  rw [eC]
  exact key

/-- C2 corrected: for an ordered tranche list with non-negative balances
and a loss with `0 ≤ loss ≤ total balance`, after `allocate_losses` the
most senior tranche's balance changed only if every less-senior tranche's
balance has been reduced to exactly zero, and the sum of the balance
reductions across all tranches equals the loss amount up to the 1e-9 break
tolerance (the loop stops as soon as the remaining loss is ≤ 1e-9, so up
to 1e-9 of the loss can be left unallocated). -/
theorem allocate_losses_ordering_sum_eps (loss : ℝ) (trs : List Tranche)
    (h0 : 0 ≤ loss) (hle : loss ≤ (trs.map Tranche.balance).sum)
    (hb : ∀ t ∈ trs, 0 ≤ t.balance) :
    (∀ (hlen : 0 < trs.length) (hlen2 : 0 < (allocate_losses loss trs).length),
      ((allocate_losses loss trs).get ⟨0, hlen2⟩).balance ≠
        (trs.get ⟨0, hlen⟩).balance →
      ∀ i (hi : i < (allocate_losses loss trs).length), 0 < i →
        ((allocate_losses loss trs).get ⟨i, hi⟩).balance = 0) ∧
    |((trs.map Tranche.balance).sum -
        ((allocate_losses loss trs).map Tranche.balance).sum) - loss| ≤ eps := by
  constructor
  · intro hlen hlen2 hne i hi hipos
    exact allocate_losses_senior_only_if loss trs hlen hlen2 hne i hi hipos
  · have hbrev : ∀ t ∈ trs.reverse, 0 ≤ t.balance := fun t ht =>
      hb t (List.mem_reverse.1 ht)
    have hsumrev : (trs.reverse.map Tranche.balance).sum =
        (trs.map Tranche.balance).sum := by
      rw [List.map_reverse, List.sum_reverse]
    have hrem0 := allocLossRev_rem_nonneg loss trs.reverse h0
    have hreme := allocLossRev_rem_le_eps loss trs.reverse hbrev
      (by rw [hsumrev]; exact hle)
    have hsum := allocLossRev_sum loss trs.reverse
    have hout : ((allocate_losses loss trs).map Tranche.balance).sum =
        (trs.map Tranche.balance).sum -
          (loss - (allocLossRev loss trs.reverse).1) := by
      rw [allocate_losses, List.map_reverse, List.sum_reverse, hsum, hsumrev]
    rw [hout, abs_le]
    constructor
    · linarith
    · linarith

/-- Witness for C2 corrected at a concrete two-tranche structure and
loss 5. -/
theorem allocate_losses_ordering_sum_eps_witness :
    |(((([⟨"A", 10, 0⟩, ⟨"B", 10, 0⟩] : List Tranche).map Tranche.balance).sum -
        ((allocate_losses 5 [⟨"A", 10, 0⟩, ⟨"B", 10, 0⟩]).map Tranche.balance).sum) - 5)| ≤ eps := by
  have h := allocate_losses_ordering_sum_eps 5 [⟨"A", 10, 0⟩, ⟨"B", 10, 0⟩]
    (by norm_num)
    (by simp only [List.map_cons, List.map_nil, List.sum_cons, List.sum_nil]; norm_num)
    (by
      intro t ht
      simp only [List.mem_cons, List.mem_singleton, List.not_mem_nil, or_false] at ht
      rcases ht with rfl | rfl <;> norm_num)
  exact h.2

/-- C2 counterexample: with tranche balances 10 and 10 and loss
`10 + 5e-10` (which is ≤ the total balance 20), the loop breaks once the
remaining loss drops to `5e-10 ≤ 1e-9`, so the total balance reduction is
10, not the loss amount: the claimed exact equality fails. -/
theorem allocate_losses_sum_ne_loss :
    0 ≤ (10 + 5 / 10 ^ 10 : ℝ) ∧
    (10 + 5 / 10 ^ 10 : ℝ) ≤
      ((([⟨"A", 10, 0⟩, ⟨"B", 10, 0⟩] : List Tranche)).map Tranche.balance).sum ∧
    (∀ t ∈ ([⟨"A", 10, 0⟩, ⟨"B", 10, 0⟩] : List Tranche), 0 ≤ t.balance) ∧
    ((([⟨"A", 10, 0⟩, ⟨"B", 10, 0⟩] : List Tranche)).map Tranche.balance).sum -
        ((allocate_losses (10 + 5 / 10 ^ 10) [⟨"A", 10, 0⟩, ⟨"B", 10, 0⟩]).map
          Tranche.balance).sum ≠ (10 + 5 / 10 ^ 10 : ℝ) := by
  have hmin : min (10 : ℝ) (10 + 5 / 10 ^ 10) = 10 := min_eq_left (by norm_num)
  have heval : allocate_losses (10 + 5 / 10 ^ 10) [⟨"A", 10, 0⟩, ⟨"B", 10, 0⟩] =
      [⟨"A", 10, 0⟩, ⟨"B", 10 - min (10 : ℝ) (10 + 5 / 10 ^ 10), 0⟩] := by
    rw [allocate_losses]
    rw [show ([⟨"A", 10, 0⟩, ⟨"B", 10, 0⟩] : List Tranche).reverse =
      [⟨"B", 10, 0⟩, ⟨"A", 10, 0⟩] from rfl]
    rw [allocLossRev_cons_break _ _ _ (by rw [hmin]; norm_num [eps])]
    rfl
  refine ⟨by norm_num,
    by simp only [List.map_cons, List.map_nil, List.sum_cons, List.sum_nil]; norm_num,
    ?_, ?_⟩
  · intro t ht
    simp only [List.mem_cons, List.mem_singleton, List.not_mem_nil, or_false] at ht
    rcases ht with rfl | rfl <;> norm_num
  · rw [heval, hmin]
    simp only [List.map_cons, List.map_nil, List.sum_cons, List.sum_nil]
    norm_num

lemma allocLossRev_overflow (loss : ℝ) (trs : List Tranche)
    (hb : ∀ t ∈ trs, 0 ≤ t.balance)
    (hover : (trs.map Tranche.balance).sum < loss) :
    ∀ t ∈ (allocLossRev loss trs).2, 0 ≤ t.balance ∧ t.balance ≤ eps := by
  induction trs generalizing loss with
  | nil => simp [allocLossRev]
  | cons tr rest ih =>
    have hrest : ∀ t ∈ rest, 0 ≤ t.balance := fun t ht =>
      hb t (List.mem_cons_of_mem _ ht)
    have hsumr : 0 ≤ (rest.map Tranche.balance).sum := by
      apply List.sum_nonneg
      intro x hx
      obtain ⟨t, ht, rfl⟩ := List.mem_map.1 hx
      exact hrest t ht
    have htr : 0 ≤ tr.balance := hb tr (List.mem_cons_self tr rest)
    simp only [List.map_cons, List.sum_cons] at hover
    have hhit : min tr.balance loss = tr.balance := min_eq_left (by linarith)
    by_cases hbr : loss - min tr.balance loss ≤ eps
    · rw [allocLossRev_cons_break loss tr rest hbr]
      rw [hhit] at hbr
      intro t ht
      rcases List.mem_cons.1 ht with rfl | hmem
      · rw [hhit]
        constructor
        · simp
        · simp [eps_pos.le]
      · refine ⟨hrest t hmem, ?_⟩
        have hle1 : t.balance ≤ (rest.map Tranche.balance).sum :=
          List.single_le_sum (fun x hx => by
            obtain ⟨t2, ht2, rfl⟩ := List.mem_map.1 hx
            exact hrest t2 ht2) _ (List.mem_map_of_mem _ hmem)
        linarith
    · rw [allocLossRev_cons_go loss tr rest hbr]
      intro t ht
      rcases List.mem_cons.1 ht with rfl | hmem
      · rw [hhit]
        constructor
        · simp
        · simp [eps_pos.le]
      · exact ih (loss - min tr.balance loss) hrest (by rw [hhit]; linarith) t hmem

/-- C9 counterexample: with a sub-epsilon senior balance 5e-10, a junior
balance 10, and loss `10 + 8e-10` strictly above the total balance
`10 + 5e-10`, the loop breaks after wiping the junior tranche (remaining
loss 8e-10 ≤ 1e-9) and the senior tranche keeps its nonzero balance, so
`allocate_losses` does not reduce every tranche's balance to 0. -/
theorem allocate_losses_overflow_nonzero :
    ((([⟨"Senior", 5 / 10 ^ 10, 0⟩, ⟨"Junior", 10, 0⟩] : List Tranche)).map
        Tranche.balance).sum < (10 + 8 / 10 ^ 10 : ℝ) ∧
    (∀ t ∈ ([⟨"Senior", 5 / 10 ^ 10, 0⟩, ⟨"Junior", 10, 0⟩] : List Tranche),
      0 ≤ t.balance) ∧
    ¬(∀ t ∈ allocate_losses (10 + 8 / 10 ^ 10)
          [⟨"Senior", 5 / 10 ^ 10, 0⟩, ⟨"Junior", 10, 0⟩],
        t.balance = 0) := by
  have hmin : min (10 : ℝ) (10 + 8 / 10 ^ 10) = 10 := min_eq_left (by norm_num)
  have heval : allocate_losses (10 + 8 / 10 ^ 10)
      [⟨"Senior", 5 / 10 ^ 10, 0⟩, ⟨"Junior", 10, 0⟩] =
      [⟨"Senior", 5 / 10 ^ 10, 0⟩,
        ⟨"Junior", 10 - min (10 : ℝ) (10 + 8 / 10 ^ 10), 0⟩] := by
    rw [allocate_losses]
    rw [show ([⟨"Senior", 5 / 10 ^ 10, 0⟩, ⟨"Junior", 10, 0⟩] : List Tranche).reverse =
      [⟨"Junior", 10, 0⟩, ⟨"Senior", 5 / 10 ^ 10, 0⟩] from rfl]
    rw [allocLossRev_cons_break _ _ _ (by rw [hmin]; norm_num [eps])]
    rfl
  refine ⟨by simp only [List.map_cons, List.map_nil, List.sum_cons, List.sum_nil]; norm_num,
    ?_, ?_⟩
  · intro t ht
    simp only [List.mem_cons, List.mem_singleton, List.not_mem_nil, or_false] at ht
    rcases ht with rfl | rfl <;> norm_num
  · intro hall
    have := hall ⟨"Senior", 5 / 10 ^ 10, 0⟩ (by rw [heval]; exact List.mem_cons_self _ _)
    norm_num at this

/-- C9 amended: when the loss strictly exceeds the total tranche balance,
`allocate_losses` returns normally (it is a total function), silently
discards the excess, and leaves every tranche's balance between 0 and the
1e-9 epsilon (exactly 0 for every tranche the loop actually reached; a
sub-epsilon stub can survive on senior tranches skipped by the break). -/
theorem allocate_losses_overflow_eps (loss : ℝ) (trs : List Tranche)
    (hb : ∀ t ∈ trs, 0 ≤ t.balance)
    (hover : (trs.map Tranche.balance).sum < loss) :
    ∀ t ∈ allocate_losses loss trs, 0 ≤ t.balance ∧ t.balance ≤ eps := by
  intro t ht
  exact allocLossRev_overflow loss trs.reverse
    (fun t2 ht2 => hb t2 (List.mem_reverse.1 ht2))
    (by rw [List.map_reverse, List.sum_reverse]; exact hover)
    t (by rw [allocate_losses] at ht; exact List.mem_reverse.1 ht)

/-- Witness for C9 amended: loss 21 against total balance 20 leaves the
senior tranche with a balance between 0 and epsilon (here exactly 0). -/
theorem allocate_losses_overflow_eps_witness :
    0 ≤ ((allocate_losses 21 [⟨"A", 10, 0⟩, ⟨"B", 10, 0⟩]).get
        ⟨0, by rw [allocate_losses_length]; norm_num⟩).balance ∧
    ((allocate_losses 21 [⟨"A", 10, 0⟩, ⟨"B", 10, 0⟩]).get
        ⟨0, by rw [allocate_losses_length]; norm_num⟩).balance ≤ eps := by
  apply allocate_losses_overflow_eps 21 [⟨"A", 10, 0⟩, ⟨"B", 10, 0⟩]
  · intro t ht
    simp only [List.mem_cons, List.mem_singleton, List.not_mem_nil, or_false] at ht
    rcases ht with rfl | rfl <;> norm_num
  · simp only [List.map_cons, List.map_nil, List.sum_cons, List.sum_nil]
    norm_num
  · exact List.get_mem _ _ _

lemma allocInterest_length (avail : ℝ) (trs : List Tranche) :
    (allocInterest avail trs).2.length = trs.length := by
  induction trs generalizing avail with
  | nil => rfl
  | cons t rest ih => simp [allocInterest, ih]

lemma allocInterest_leftover (avail : ℝ) (trs : List Tranche) :
    (allocInterest avail trs).1 = avail - (allocInterest avail trs).2.sum := by
  induction trs generalizing avail with
  | nil => simp [allocInterest]
  | cons t rest ih =>
    simp only [allocInterest, List.sum_cons]
    rw [ih]
    ring

lemma allocInterest_get (avail : ℝ) (trs : List Tranche) (i : ℕ)
    (hi : i < (allocInterest avail trs).2.length) (hi2 : i < trs.length) :
    (allocInterest avail trs).2.get ⟨i, hi⟩ =
      min ((trs.get ⟨i, hi2⟩).balance * (trs.get ⟨i, hi2⟩).coupon / 12)
        (avail - ((allocInterest avail trs).2.take i).sum) := by
  induction trs generalizing avail i with
  | nil => simp at hi2
  | cons t rest ih =>
    rcases Nat.eq_zero_or_pos i with rfl | hip
    · simp [allocInterest]
    · obtain ⟨k, rfl⟩ : ∃ k, i = k + 1 := ⟨i - 1, by omega⟩
      have hi' : k < (allocInterest (avail - min (t.balance * t.coupon / 12) avail) rest).2.length := by
        have h2 := hi
        simp only [allocInterest, List.length_cons] at h2
        omega
      have hi2' : k < rest.length := by simpa using hi2
      have := ih (avail - min (t.balance * t.coupon / 12) avail) k hi' hi2'
      simp only [allocInterest, List.get_eq_getElem, List.getElem_cons_succ,
        List.take_succ_cons, List.sum_cons] at this ⊢
      rw [this]
      congr 1
      ring

/-- C7: interest is paid most senior first, each tranche's interest paid
equals its due `balance * coupon / 12` capped at the interest cash left by
all more-senior tranches; no arrears state is kept (the post-loss tranche
list goes to the principal step unchanged); and the month's principal pool
equals collateral principal cash plus exactly the interest cash left
unconsumed by the interest step. -/
theorem interest_waterfall_spec (cpr cdr recovery : ℝ) (us : ℕ → ℝ)
    (pool : List Mortgage) (trs : List Tranche)
    (r : MonthResult) (hr : r = monthStep cpr cdr recovery us pool trs)
    (trs1 : List Tranche) (htrs1 : trs1 = allocate_losses r.losses trs) :
    (∀ i (hi : i < r.interestPaid.length) (hi2 : i < trs1.length),
      r.interestPaid.get ⟨i, hi⟩ =
        min ((trs1.get ⟨i, hi2⟩).balance * (trs1.get ⟨i, hi2⟩).coupon / 12)
          (r.cashInt - (r.interestPaid.take i).sum)) ∧
    r.interestPaid.length = trs1.length ∧
    r.tranches =
      (allocPrincipal (r.cashPrin + (r.cashInt - r.interestPaid.sum)) trs1).2.1 ∧
    r.principalPaid =
      (allocPrincipal (r.cashPrin + (r.cashInt - r.interestPaid.sum)) trs1).2.2 := by
  subst hr
  subst htrs1
  simp only [monthStep]
  refine ⟨?_, ?_, ?_, ?_⟩
  · intro i hi hi2
    exact allocInterest_get _ _ i hi hi2
  · exact allocInterest_length _ _
  · rw [← allocInterest_leftover]
  · rw [← allocInterest_leftover]

/-- Witness for C7: the principal pool identity at a concrete one-tranche
structure with an empty pool. -/
theorem interest_waterfall_spec_witness :
    (monthStep 0 0 0 (fun _ => 1) [] [⟨"S", 10, 12 / 100⟩]).principalPaid =
      (allocPrincipal
        ((monthStep 0 0 0 (fun _ => 1) [] [⟨"S", 10, 12 / 100⟩]).cashPrin +
          ((monthStep 0 0 0 (fun _ => 1) [] [⟨"S", 10, 12 / 100⟩]).cashInt -
            (monthStep 0 0 0 (fun _ => 1) [] [⟨"S", 10, 12 / 100⟩]).interestPaid.sum))
        (allocate_losses
          (monthStep 0 0 0 (fun _ => 1) [] [⟨"S", 10, 12 / 100⟩]).losses
          [⟨"S", 10, 12 / 100⟩])).2.2 :=
  (interest_waterfall_spec 0 0 0 (fun _ => 1) [] [⟨"S", 10, 12 / 100⟩]
    _ rfl _ rfl).2.2.2

lemma step_frozen (m : Mortgage) (u cpr cdr recovery : ℝ)
    (h : m.alive = false ∨ m.balance ≤ eps) :
    m.step u cpr cdr recovery = (m, ⟨0, 0, 0⟩) := by
  unfold Mortgage.step
  rw [if_pos h]

lemma step_default_eq (m : Mortgage) (u cpr cdr recovery : ℝ)
    (h : ¬(m.alive = false ∨ m.balance ≤ eps)) (hu : u < monthlyHazard cdr) :
    m.step u cpr cdr recovery =
      ({ m with balance := 0, alive := false },
        ⟨0, m.balance * recovery, m.balance - m.balance * recovery⟩) := by
  simp only [Mortgage.step]
  rw [if_neg h, if_pos hu]

lemma step_live_eq (m : Mortgage) (u cpr cdr recovery : ℝ)
    (h : ¬(m.alive = false ∨ m.balance ≤ eps)) (hu : ¬u < monthlyHazard cdr) :
    m.step u cpr cdr recovery =
      ({ m with
          balance := m.balance - min m.balance
            (min (m.payment - m.balance * (m.rate / 12)) m.balance +
              (m.balance - min (m.payment - m.balance * (m.rate / 12)) m.balance) *
                monthlyHazard cpr),
          remaining := m.remaining - 1,
          alive := if m.remaining - 1 ≤ 0 ∨
              m.balance - min m.balance
                (min (m.payment - m.balance * (m.rate / 12)) m.balance +
                  (m.balance - min (m.payment - m.balance * (m.rate / 12)) m.balance) *
                    monthlyHazard cpr) ≤ eps then false else m.alive },
        ⟨m.balance * (m.rate / 12),
          min m.balance
            (min (m.payment - m.balance * (m.rate / 12)) m.balance +
              (m.balance - min (m.payment - m.balance * (m.rate / 12)) m.balance) *
                monthlyHazard cpr), 0⟩) := by
  simp only [Mortgage.step]
  rw [if_neg h, if_neg hu]

/-- Invariants of a single loan preserved by `Mortgage.step`: non-negative
balance and rate, and scheduled interest never exceeding the level
payment (true of every loan built by `Mortgage.create` with positive
parameters, and preserved because the balance never grows). -/
def MortgageInv (m : Mortgage) : Prop :=
  0 ≤ m.balance ∧ 0 ≤ m.rate ∧ m.balance * (m.rate / 12) ≤ m.payment

/-- Pool-wide loan invariant. -/
def PoolInv (pool : List Mortgage) : Prop := ∀ m ∈ pool, MortgageInv m

/-- Tranche-ledger invariant: non-negative balances and coupons. -/
def TrancheInv (trs : List Tranche) : Prop :=
  ∀ t ∈ trs, 0 ≤ t.balance ∧ 0 ≤ t.coupon

lemma monthlyHazard_nonneg (x : ℝ) (h0 : 0 ≤ x) (h1 : x ≤ 1) :
    0 ≤ monthlyHazard x := by
  rw [monthlyHazard]
  have : (1 - x) ^ ((1 : ℝ) / 12) ≤ 1 :=
    Real.rpow_le_one (by linarith) (by linarith) (by norm_num)
  linarith

lemma step_inv (m : Mortgage) (u cpr cdr recovery : ℝ)
    (hm : MortgageInv m) (hcpr0 : 0 ≤ cpr) (hcpr1 : cpr ≤ 1)
    (hrec0 : 0 ≤ recovery) (hrec1 : recovery ≤ 1) :
    MortgageInv (m.step u cpr cdr recovery).1 ∧
    (m.step u cpr cdr recovery).1.balance ≤ m.balance ∧
    0 ≤ (m.step u cpr cdr recovery).2.interest ∧
    0 ≤ (m.step u cpr cdr recovery).2.principal ∧
    0 ≤ (m.step u cpr cdr recovery).2.loss := by
  obtain ⟨hb, hr, hbp⟩ := hm
  by_cases h1 : m.alive = false ∨ m.balance ≤ eps
  · rw [step_frozen m u cpr cdr recovery h1]
    exact ⟨⟨hb, hr, hbp⟩, le_refl _, le_refl _, le_refl _, le_refl _⟩
  · by_cases h2 : u < monthlyHazard cdr
    · rw [step_default_eq m u cpr cdr recovery h1 h2]
      have hpay0 : 0 ≤ m.payment := le_trans (by positivity) hbp
      refine ⟨⟨le_refl _, hr, by simpa using hpay0⟩, hb, le_refl _, ?_, ?_⟩
      · show 0 ≤ m.balance * recovery
        exact mul_nonneg hb hrec0
      · show 0 ≤ m.balance - m.balance * recovery
        nlinarith
    · rw [step_live_eq m u cpr cdr recovery h1 h2]
      have hmp0 : 0 ≤ monthlyHazard cpr := monthlyHazard_nonneg cpr hcpr0 hcpr1
      set sp := min (m.payment - m.balance * (m.rate / 12)) m.balance with hspdef
      set tp := min m.balance (sp + (m.balance - sp) * monthlyHazard cpr) with htpdef
      have hsp0 : 0 ≤ sp := le_min (by linarith) hb
      have hsple : sp ≤ m.balance := min_le_right _ _
      have hprod : 0 ≤ (m.balance - sp) * monthlyHazard cpr :=
        mul_nonneg (by linarith) hmp0
      have htp0 : 0 ≤ tp := le_min hb (by linarith)
      have htple : tp ≤ m.balance := min_le_left _ _
      refine ⟨⟨?_, hr, ?_⟩, ?_, ?_, ?_, ?_⟩
      · show 0 ≤ m.balance - tp
        linarith
      · show (m.balance - tp) * (m.rate / 12) ≤ m.payment
        have hmono : (m.balance - tp) * (m.rate / 12) ≤ m.balance * (m.rate / 12) :=
          mul_le_mul_of_nonneg_right (by linarith) (by positivity)
        linarith
      · show m.balance - tp ≤ m.balance
        linarith
      · show 0 ≤ m.balance * (m.rate / 12)
        positivity
      · show 0 ≤ tp
        exact htp0
      · exact le_refl _

lemma stepPool_inv (cpr cdr recovery : ℝ) (us : ℕ → ℝ) (idx : ℕ)
    (pool : List Mortgage) (hp : PoolInv pool)
    (hcpr0 : 0 ≤ cpr) (hcpr1 : cpr ≤ 1)
    (hrec0 : 0 ≤ recovery) (hrec1 : recovery ≤ 1) :
    PoolInv (stepPool cpr cdr recovery us idx pool).1 ∧
    0 ≤ (stepPool cpr cdr recovery us idx pool).2.interest ∧
    0 ≤ (stepPool cpr cdr recovery us idx pool).2.principal ∧
    0 ≤ (stepPool cpr cdr recovery us idx pool).2.loss := by
  induction pool generalizing idx with
  | nil =>
    refine ⟨fun m hm => absurd hm (List.not_mem_nil m), ?_, ?_, ?_⟩ <;>
      simp [stepPool]
  | cons mt rest ih =>
    have hmt := hp mt (List.mem_cons_self mt rest)
    have hrest : PoolInv rest := fun m hm => hp m (List.mem_cons_of_mem _ hm)
    obtain ⟨hinv, hble, hint, hprin, hloss⟩ :=
      step_inv mt (us idx) cpr cdr recovery hmt hcpr0 hcpr1 hrec0 hrec1
    obtain ⟨ih1, ih2, ih3, ih4⟩ := ih (idx + 1) hrest
    simp only [stepPool]
    refine ⟨?_, by linarith, by linarith, by linarith⟩
    intro m hm
    rcases List.mem_cons.1 hm with rfl | hmem
    · exact hinv
    · exact ih1 m hmem

lemma allocLossRev_forall2 (loss : ℝ) (trs : List Tranche) (h0 : 0 ≤ loss)
    (hb : ∀ t ∈ trs, 0 ≤ t.balance) :
    List.Forall₂ (fun t t2 => t2.balance ≤ t.balance ∧ 0 ≤ t2.balance ∧
      t2.coupon = t.coupon) trs (allocLossRev loss trs).2 := by
  induction trs generalizing loss with
  | nil => simp [allocLossRev]
  | cons tr rest ih =>
    have htr := hb tr (List.mem_cons_self tr rest)
    have hrest : ∀ t ∈ rest, 0 ≤ t.balance := fun t ht =>
      hb t (List.mem_cons_of_mem _ ht)
    have hmin0 : 0 ≤ min tr.balance loss := le_min htr h0
    have hminle : min tr.balance loss ≤ tr.balance := min_le_left _ _
    by_cases hbr : loss - min tr.balance loss ≤ eps
    · rw [allocLossRev_cons_break loss tr rest hbr]
      refine List.Forall₂.cons ⟨?_, ?_, rfl⟩
        (List.forall₂_same.2 (fun t ht => ⟨le_refl _, hrest t ht, rfl⟩))
      · show tr.balance - min tr.balance loss ≤ tr.balance
        linarith
      · show 0 ≤ tr.balance - min tr.balance loss
        linarith
    · rw [allocLossRev_cons_go loss tr rest hbr]
      refine List.Forall₂.cons ⟨?_, ?_, rfl⟩
        (ih _ (by linarith [min_le_right tr.balance loss]) hrest)
      · show tr.balance - min tr.balance loss ≤ tr.balance
        linarith
      · show 0 ≤ tr.balance - min tr.balance loss
        linarith

lemma forall2_reverse {R : Tranche → Tranche → Prop} {l1 l2 : List Tranche}
    (h : List.Forall₂ R l1 l2) : List.Forall₂ R l1.reverse l2.reverse :=
  List.rel_reverse h

lemma allocate_losses_forall2 (loss : ℝ) (trs : List Tranche) (h0 : 0 ≤ loss)
    (hb : ∀ t ∈ trs, 0 ≤ t.balance) :
    List.Forall₂ (fun t t2 => t2.balance ≤ t.balance ∧ 0 ≤ t2.balance ∧
      t2.coupon = t.coupon) trs (allocate_losses loss trs) := by
  have h := allocLossRev_forall2 loss trs.reverse h0
    (fun t ht => hb t (List.mem_reverse.1 ht))
  have h2 := forall2_reverse h
  rw [List.reverse_reverse] at h2
  exact h2

lemma allocPrincipal_forall2 (avail : ℝ) (trs : List Tranche) (h0 : 0 ≤ avail)
    (hb : ∀ t ∈ trs, 0 ≤ t.balance) :
    List.Forall₂ (fun t t2 => t2.balance ≤ t.balance ∧ 0 ≤ t2.balance ∧
      t2.coupon = t.coupon) trs (allocPrincipal avail trs).2.1 := by
  induction trs generalizing avail with
  | nil => simp [allocPrincipal]
  | cons t rest ih =>
    have ht0 := hb t (List.mem_cons_self t rest)
    have hrest : ∀ x ∈ rest, 0 ≤ x.balance := fun x hx =>
      hb x (List.mem_cons_of_mem _ hx)
    have hp0 : 0 ≤ min t.balance avail := le_min ht0 h0
    have hple : min t.balance avail ≤ avail := min_le_right _ _
    have hplb : min t.balance avail ≤ t.balance := min_le_left _ _
    simp only [allocPrincipal]
    refine List.Forall₂.cons ⟨?_, ?_, rfl⟩ (ih _ (by linarith) hrest)
    · show t.balance - min t.balance avail ≤ t.balance
      linarith
    · show 0 ≤ t.balance - min t.balance avail
      linarith

lemma forall2_balance_trans {l1 l2 l3 : List Tranche}
    (h12 : List.Forall₂ (fun t t2 => t2.balance ≤ t.balance ∧ 0 ≤ t2.balance ∧
      t2.coupon = t.coupon) l1 l2)
    (h23 : List.Forall₂ (fun t t2 => t2.balance ≤ t.balance ∧ 0 ≤ t2.balance ∧
      t2.coupon = t.coupon) l2 l3) :
    List.Forall₂ (fun t t2 => t2.balance ≤ t.balance) l1 l3 := by
  induction h12 generalizing l3 with
  | nil =>
    cases h23
    exact List.Forall₂.nil
  | cons hab htail ih =>
    cases h23 with
    | cons hbc h2tail =>
      exact List.Forall₂.cons (le_trans hbc.1 hab.1) (ih h2tail)

lemma forall2_trancheInv {l1 l2 : List Tranche} (h1 : TrancheInv l1)
    (h : List.Forall₂ (fun t t2 => t2.balance ≤ t.balance ∧ 0 ≤ t2.balance ∧
      t2.coupon = t.coupon) l1 l2) : TrancheInv l2 := by
  induction h with
  | nil => exact fun t ht => absurd ht (List.not_mem_nil t)
  | cons hab htail ih =>
    intro t ht
    rcases List.mem_cons.1 ht with rfl | hmem
    · refine ⟨hab.2.1, ?_⟩
      rw [hab.2.2]
      exact (h1 _ (List.mem_cons_self _ _)).2
    · exact ih (fun x hx => h1 x (List.mem_cons_of_mem _ hx)) t hmem

lemma allocInterest_pays (avail : ℝ) (trs : List Tranche) (h0 : 0 ≤ avail)
    (hc : TrancheInv trs) :
    (∀ x ∈ (allocInterest avail trs).2, 0 ≤ x) ∧
    0 ≤ (allocInterest avail trs).1 := by
  induction trs generalizing avail with
  | nil =>
    refine ⟨fun x hx => absurd hx (List.not_mem_nil x), ?_⟩
    simpa [allocInterest] using h0
  | cons t rest ih =>
    obtain ⟨hb, hcp⟩ := hc t (List.mem_cons_self t rest)
    have hdue : 0 ≤ t.balance * t.coupon / 12 := by positivity
    have hpaid0 : 0 ≤ min (t.balance * t.coupon / 12) avail := le_min hdue h0
    have hpaidle : min (t.balance * t.coupon / 12) avail ≤ avail := min_le_right _ _
    have hrest : TrancheInv rest := fun x hx => hc x (List.mem_cons_of_mem _ hx)
    obtain ⟨ih1, ih2⟩ := ih (avail - min (t.balance * t.coupon / 12) avail)
      (by linarith) hrest
    simp only [allocInterest]
    refine ⟨?_, ih2⟩
    intro x hx
    rcases List.mem_cons.1 hx with rfl | hmem
    · exact hpaid0
    · exact ih1 x hmem

lemma allocPrincipal_pays (avail : ℝ) (trs : List Tranche) (h0 : 0 ≤ avail)
    (hb : ∀ t ∈ trs, 0 ≤ t.balance) :
    (∀ x ∈ (allocPrincipal avail trs).2.2, 0 ≤ x) ∧
    0 ≤ (allocPrincipal avail trs).1 ∧
    (allocPrincipal avail trs).2.2.sum + (allocPrincipal avail trs).1 = avail := by
  induction trs generalizing avail with
  | nil =>
    refine ⟨fun x hx => absurd hx (List.not_mem_nil x), ?_, ?_⟩ <;>
      simp [allocPrincipal, h0]
  | cons t rest ih =>
    have ht0 := hb t (List.mem_cons_self t rest)
    have hrest : ∀ x ∈ rest, 0 ≤ x.balance := fun x hx =>
      hb x (List.mem_cons_of_mem _ hx)
    have hp0 : 0 ≤ min t.balance avail := le_min ht0 h0
    have hple : min t.balance avail ≤ avail := min_le_right _ _
    obtain ⟨ih1, ih2, ih3⟩ := ih (avail - min t.balance avail) (by linarith) hrest
    simp only [allocPrincipal, List.sum_cons]
    refine ⟨?_, ih2, by linarith⟩
    intro x hx
    rcases List.mem_cons.1 hx with rfl | hmem
    · exact hp0
    · exact ih1 x hmem

lemma monthStep_cash (cpr cdr recovery : ℝ) (us : ℕ → ℝ)
    (pool : List Mortgage) (trs : List Tranche)
    (hp : PoolInv pool) (ht : TrancheInv trs)
    (hcpr0 : 0 ≤ cpr) (hcpr1 : cpr ≤ 1)
    (hrec0 : 0 ≤ recovery) (hrec1 : recovery ≤ 1) :
    (∀ x ∈ (monthStep cpr cdr recovery us pool trs).interestPaid, 0 ≤ x) ∧
    (∀ x ∈ (monthStep cpr cdr recovery us pool trs).principalPaid, 0 ≤ x) ∧
    (monthStep cpr cdr recovery us pool trs).interestPaid.sum +
        (monthStep cpr cdr recovery us pool trs).principalPaid.sum ≤
      (monthStep cpr cdr recovery us pool trs).cashInt +
        (monthStep cpr cdr recovery us pool trs).cashPrin ∧
    PoolInv (monthStep cpr cdr recovery us pool trs).pool ∧
    TrancheInv (monthStep cpr cdr recovery us pool trs).tranches ∧
    List.Forall₂ (fun t t2 => t2.balance ≤ t.balance) trs
      (monthStep cpr cdr recovery us pool trs).tranches := by
  obtain ⟨hpool, hci, hcp, hcl⟩ :=
    stepPool_inv cpr cdr recovery us 0 pool hp hcpr0 hcpr1 hrec0 hrec1
  have htb : ∀ t ∈ trs, 0 ≤ t.balance := fun t h2 => (ht t h2).1
  have hf1 := allocate_losses_forall2 (stepPool cpr cdr recovery us 0 pool).2.loss
    trs hcl htb
  have htrs1 : TrancheInv (allocate_losses
      (stepPool cpr cdr recovery us 0 pool).2.loss trs) :=
    forall2_trancheInv ht hf1
  have htrs1b : ∀ t ∈ allocate_losses
      (stepPool cpr cdr recovery us 0 pool).2.loss trs, 0 ≤ t.balance :=
    fun t h2 => (htrs1 t h2).1
  obtain ⟨hip, hil⟩ := allocInterest_pays
    (stepPool cpr cdr recovery us 0 pool).2.interest
    (allocate_losses (stepPool cpr cdr recovery us 0 pool).2.loss trs) hci htrs1
  have hilv := allocInterest_leftover
    (stepPool cpr cdr recovery us 0 pool).2.interest
    (allocate_losses (stepPool cpr cdr recovery us 0 pool).2.loss trs)
  have hpav : 0 ≤ (stepPool cpr cdr recovery us 0 pool).2.principal +
      (allocInterest (stepPool cpr cdr recovery us 0 pool).2.interest
        (allocate_losses (stepPool cpr cdr recovery us 0 pool).2.loss trs)).1 := by
    linarith
  obtain ⟨hpp, hpl, hps⟩ := allocPrincipal_pays
    ((stepPool cpr cdr recovery us 0 pool).2.principal +
      (allocInterest (stepPool cpr cdr recovery us 0 pool).2.interest
        (allocate_losses (stepPool cpr cdr recovery us 0 pool).2.loss trs)).1)
    (allocate_losses (stepPool cpr cdr recovery us 0 pool).2.loss trs)
    hpav htrs1b
  have hf2 := allocPrincipal_forall2
    ((stepPool cpr cdr recovery us 0 pool).2.principal +
      (allocInterest (stepPool cpr cdr recovery us 0 pool).2.interest
        (allocate_losses (stepPool cpr cdr recovery us 0 pool).2.loss trs)).1)
    (allocate_losses (stepPool cpr cdr recovery us 0 pool).2.loss trs)
    hpav htrs1b
  simp only [monthStep]
  refine ⟨hip, hpp, ?_, hpool, forall2_trancheInv htrs1 hf2,
    forall2_balance_trans hf1 hf2⟩
  linarith

lemma runPath_inv (cpr cdr recovery disc : ℝ) (U : ℕ → ℕ → ℝ)
    (init : PathState) (hp : PoolInv init.pool) (ht : TrancheInv init.tranches)
    (hcpr0 : 0 ≤ cpr) (hcpr1 : cpr ≤ 1)
    (hrec0 : 0 ≤ recovery) (hrec1 : recovery ≤ 1) :
    ∀ k, PoolInv (runPath cpr cdr recovery disc U init k).pool ∧
      TrancheInv (runPath cpr cdr recovery disc U init k).tranches := by
  intro k
  induction k with
  | zero => exact ⟨hp, ht⟩
  | succ n ih =>
    obtain ⟨ihp, iht⟩ := ih
    by_cases ha : (runPath cpr cdr recovery disc U init n).pool.any
        (fun mt => mt.alive)
    · simp only [runPath, priceStep, if_pos ha]
      obtain ⟨-, -, -, hpool, htr, -⟩ := monthStep_cash cpr cdr recovery (U n)
        (runPath cpr cdr recovery disc U init n).pool
        (runPath cpr cdr recovery disc U init n).tranches
        ihp iht hcpr0 hcpr1 hrec0 hrec1
      exact ⟨hpool, htr⟩
    · simp only [runPath, priceStep, if_neg ha]
      exact ⟨ihp, iht⟩

/-- C10: at every simulated month of a path, each tranche's interest
payment and principal payment are non-negative, and the sum across
tranches of interest paid plus principal paid never exceeds the total
collateral cash (pool interest plus pool principal) collected that month:
the waterfall never pays out more cash than the collateral generated. -/
theorem waterfall_cash_conservation (cpr cdr recovery disc : ℝ)
    (U : ℕ → ℕ → ℝ) (init : PathState)
    (hp : PoolInv init.pool) (ht : TrancheInv init.tranches)
    (hcpr0 : 0 ≤ cpr) (hcpr1 : cpr ≤ 1)
    (hrec0 : 0 ≤ recovery) (hrec1 : recovery ≤ 1) (k : ℕ) :
    (∀ x ∈ (monthStep cpr cdr recovery (U k)
        (runPath cpr cdr recovery disc U init k).pool
        (runPath cpr cdr recovery disc U init k).tranches).interestPaid, 0 ≤ x) ∧
    (∀ x ∈ (monthStep cpr cdr recovery (U k)
        (runPath cpr cdr recovery disc U init k).pool
        (runPath cpr cdr recovery disc U init k).tranches).principalPaid, 0 ≤ x) ∧
    (monthStep cpr cdr recovery (U k)
        (runPath cpr cdr recovery disc U init k).pool
        (runPath cpr cdr recovery disc U init k).tranches).interestPaid.sum +
      (monthStep cpr cdr recovery (U k)
        (runPath cpr cdr recovery disc U init k).pool
        (runPath cpr cdr recovery disc U init k).tranches).principalPaid.sum ≤
    (monthStep cpr cdr recovery (U k)
        (runPath cpr cdr recovery disc U init k).pool
        (runPath cpr cdr recovery disc U init k).tranches).cashInt +
      (monthStep cpr cdr recovery (U k)
        (runPath cpr cdr recovery disc U init k).pool
        (runPath cpr cdr recovery disc U init k).tranches).cashPrin := by
  obtain ⟨hpk, htk⟩ := runPath_inv cpr cdr recovery disc U init hp ht
    hcpr0 hcpr1 hrec0 hrec1 k
  obtain ⟨h1, h2, h3, -, -, -⟩ := monthStep_cash cpr cdr recovery (U k)
    (runPath cpr cdr recovery disc U init k).pool
    (runPath cpr cdr recovery disc U init k).tranches
    hpk htk hcpr0 hcpr1 hrec0 hrec1
  exact ⟨h1, h2, h3⟩

/-- Witness for C10 at a concrete one-loan, one-tranche path in month 1. -/
theorem waterfall_cash_conservation_witness :
    (∀ x ∈ (monthStep 0 0 (3 / 5) ((fun _ _ => (1 : ℝ) / 2) 0)
        (runPath 0 0 (3 / 5) (5 / 100) (fun _ _ => (1 : ℝ) / 2)
          ⟨[⟨100, 1 / 10, 360, 360, 2, true⟩], [⟨"S", 50, 3 / 100⟩], [0]⟩ 0).pool
        (runPath 0 0 (3 / 5) (5 / 100) (fun _ _ => (1 : ℝ) / 2)
          ⟨[⟨100, 1 / 10, 360, 360, 2, true⟩], [⟨"S", 50, 3 / 100⟩], [0]⟩ 0).tranches).interestPaid,
      0 ≤ x) ∧
    (∀ x ∈ (monthStep 0 0 (3 / 5) ((fun _ _ => (1 : ℝ) / 2) 0)
        (runPath 0 0 (3 / 5) (5 / 100) (fun _ _ => (1 : ℝ) / 2)
          ⟨[⟨100, 1 / 10, 360, 360, 2, true⟩], [⟨"S", 50, 3 / 100⟩], [0]⟩ 0).pool
        (runPath 0 0 (3 / 5) (5 / 100) (fun _ _ => (1 : ℝ) / 2)
          ⟨[⟨100, 1 / 10, 360, 360, 2, true⟩], [⟨"S", 50, 3 / 100⟩], [0]⟩ 0).tranches).principalPaid,
      0 ≤ x) ∧
    (monthStep 0 0 (3 / 5) ((fun _ _ => (1 : ℝ) / 2) 0)
        (runPath 0 0 (3 / 5) (5 / 100) (fun _ _ => (1 : ℝ) / 2)
          ⟨[⟨100, 1 / 10, 360, 360, 2, true⟩], [⟨"S", 50, 3 / 100⟩], [0]⟩ 0).pool
        (runPath 0 0 (3 / 5) (5 / 100) (fun _ _ => (1 : ℝ) / 2)
          ⟨[⟨100, 1 / 10, 360, 360, 2, true⟩], [⟨"S", 50, 3 / 100⟩], [0]⟩ 0).tranches).interestPaid.sum +
      (monthStep 0 0 (3 / 5) ((fun _ _ => (1 : ℝ) / 2) 0)
        (runPath 0 0 (3 / 5) (5 / 100) (fun _ _ => (1 : ℝ) / 2)
          ⟨[⟨100, 1 / 10, 360, 360, 2, true⟩], [⟨"S", 50, 3 / 100⟩], [0]⟩ 0).pool
        (runPath 0 0 (3 / 5) (5 / 100) (fun _ _ => (1 : ℝ) / 2)
          ⟨[⟨100, 1 / 10, 360, 360, 2, true⟩], [⟨"S", 50, 3 / 100⟩], [0]⟩ 0).tranches).principalPaid.sum ≤
    (monthStep 0 0 (3 / 5) ((fun _ _ => (1 : ℝ) / 2) 0)
        (runPath 0 0 (3 / 5) (5 / 100) (fun _ _ => (1 : ℝ) / 2)
          ⟨[⟨100, 1 / 10, 360, 360, 2, true⟩], [⟨"S", 50, 3 / 100⟩], [0]⟩ 0).pool
        (runPath 0 0 (3 / 5) (5 / 100) (fun _ _ => (1 : ℝ) / 2)
          ⟨[⟨100, 1 / 10, 360, 360, 2, true⟩], [⟨"S", 50, 3 / 100⟩], [0]⟩ 0).tranches).cashInt +
      (monthStep 0 0 (3 / 5) ((fun _ _ => (1 : ℝ) / 2) 0)
        (runPath 0 0 (3 / 5) (5 / 100) (fun _ _ => (1 : ℝ) / 2)
          ⟨[⟨100, 1 / 10, 360, 360, 2, true⟩], [⟨"S", 50, 3 / 100⟩], [0]⟩ 0).pool
        (runPath 0 0 (3 / 5) (5 / 100) (fun _ _ => (1 : ℝ) / 2)
          ⟨[⟨100, 1 / 10, 360, 360, 2, true⟩], [⟨"S", 50, 3 / 100⟩], [0]⟩ 0).tranches).cashPrin := by
  apply waterfall_cash_conservation 0 0 (3 / 5) (5 / 100) (fun _ _ => (1 : ℝ) / 2)
    ⟨[⟨100, 1 / 10, 360, 360, 2, true⟩], [⟨"S", 50, 3 / 100⟩], [0]⟩
  · intro m hm
    rcases List.mem_singleton.1 hm with rfl
    refine ⟨by norm_num, by norm_num, by norm_num⟩
  · intro t ht
    rcases List.mem_singleton.1 ht with rfl
    exact ⟨by norm_num, by norm_num⟩
  · norm_num
  · norm_num
  · norm_num
  · norm_num

/-- C4: for every tranche and every simulated month within a path, the
tranche's balance after the month's loss allocation, interest allocation
and principal allocation is at most its balance before the month (the
interest leg never touches balances, and the loss and principal legs only
ever reduce them). -/
theorem tranche_balances_monotone (cpr cdr recovery disc : ℝ)
    (U : ℕ → ℕ → ℝ) (init : PathState)
    (hp : PoolInv init.pool) (ht : TrancheInv init.tranches)
    (hcpr0 : 0 ≤ cpr) (hcpr1 : cpr ≤ 1)
    (hrec0 : 0 ≤ recovery) (hrec1 : recovery ≤ 1) (k : ℕ) :
    List.Forall₂ (fun t t2 => t2.balance ≤ t.balance)
      (runPath cpr cdr recovery disc U init k).tranches
      (runPath cpr cdr recovery disc U init (k + 1)).tranches := by
  obtain ⟨hpk, htk⟩ := runPath_inv cpr cdr recovery disc U init hp ht
    hcpr0 hcpr1 hrec0 hrec1 k
  by_cases ha : (runPath cpr cdr recovery disc U init k).pool.any
      (fun mt => mt.alive)
  · simp only [runPath, priceStep, if_pos ha]
    obtain ⟨-, -, -, -, -, hf⟩ := monthStep_cash cpr cdr recovery (U k)
      (runPath cpr cdr recovery disc U init k).pool
      (runPath cpr cdr recovery disc U init k).tranches
      hpk htk hcpr0 hcpr1 hrec0 hrec1
    exact hf
  · simp only [runPath, priceStep, if_neg ha]
    exact List.forall₂_same.2 (fun t _ => le_refl _)

/-- Witness for C4 at a concrete one-loan, one-tranche path in month 1. -/
theorem tranche_balances_monotone_witness :
    List.Forall₂ (fun t t2 => t2.balance ≤ t.balance)
      (runPath 0 0 (3 / 5) (5 / 100) (fun _ _ => (1 : ℝ) / 2)
        ⟨[⟨100, 1 / 10, 360, 360, 2, true⟩], [⟨"S", 50, 3 / 100⟩], [0]⟩ 0).tranches
      (runPath 0 0 (3 / 5) (5 / 100) (fun _ _ => (1 : ℝ) / 2)
        ⟨[⟨100, 1 / 10, 360, 360, 2, true⟩], [⟨"S", 50, 3 / 100⟩], [0]⟩ 1).tranches := by
  apply tranche_balances_monotone 0 0 (3 / 5) (5 / 100) (fun _ _ => (1 : ℝ) / 2)
    ⟨[⟨100, 1 / 10, 360, 360, 2, true⟩], [⟨"S", 50, 3 / 100⟩], [0]⟩
  · intro m hm
    rcases List.mem_singleton.1 hm with rfl
    refine ⟨by norm_num, by norm_num, by norm_num⟩
  · intro t ht
    rcases List.mem_singleton.1 ht with rfl
    exact ⟨by norm_num, by norm_num⟩
  · norm_num
  · norm_num
  · norm_num
  · norm_num

/-- Closed-form outstanding balance after `k` months of exact annuity
amortization at monthly rate `r / 12` with level payment `pay`. -/
noncomputable def annuityBalance (P r pay : ℝ) (k : ℕ) : ℝ :=
  P * (1 + r / 12) ^ k - pay * (((1 + r / 12) ^ k - 1) / (r / 12))

lemma annuityBalance_zero (P r pay : ℝ) : annuityBalance P r pay 0 = P := by
  simp [annuityBalance]

lemma annuityBalance_succ (P r pay : ℝ) (k : ℕ) (hr : r ≠ 0) :
    annuityBalance P r pay (k + 1) =
      annuityBalance P r pay k * (1 + r / 12) - pay := by
  have hx : (r / 12 : ℝ) ≠ 0 := by
    intro h
    exact hr (by linarith)
  rw [annuityBalance, annuityBalance, pow_succ]
  field_simp
  ring

lemma annuityBalance_term (P r : ℝ) (n : ℕ) (hr : 0 < r) (hn : 0 < n) :
    annuityBalance P r (P * (r / 12) / (1 - (1 + r / 12) ^ (-(n : ℤ)))) n = 0 := by
  have hx : (0 : ℝ) < r / 12 := by linarith
  have h1x : (1 : ℝ) < 1 + r / 12 := by linarith
  have hA : (1 : ℝ) < (1 + r / 12) ^ n := one_lt_pow₀ h1x (by omega)
  have hA0 : ((1 + r / 12 : ℝ) ^ n) ≠ 0 := by positivity
  have hAm1 : ((1 + r / 12 : ℝ) ^ n) - 1 ≠ 0 := by linarith
  have hzpow : (1 + r / 12 : ℝ) ^ (-(n : ℤ)) = ((1 + r / 12) ^ n)⁻¹ := by
    rw [zpow_neg, zpow_natCast]
  have e1 : 1 - ((1 + r / 12 : ℝ) ^ n)⁻¹ =
      ((1 + r / 12) ^ n - 1) / (1 + r / 12) ^ n := by
    field_simp
  rw [annuityBalance, hzpow, e1, div_div_eq_mul_div]
  have hx0 : (r / 12 : ℝ) ≠ 0 := ne_of_gt hx
  generalize hgen : ((1 + r / 12 : ℝ) ^ n) = A at hAm1 hA0 ⊢
  field_simp
  ring

lemma monthlyHazard_zero : monthlyHazard 0 = 0 := by
  rw [monthlyHazard]
  simp [Real.one_rpow]

lemma runLoan_succ (cpr cdr recovery : ℝ) (us : ℕ → ℝ) (m : Mortgage) (k : ℕ) :
    runLoan cpr cdr recovery us m (k + 1) =
      (((runLoan cpr cdr recovery us m k).1.step (us k) cpr cdr recovery).1,
        (runLoan cpr cdr recovery us m k).2 +
          ((runLoan cpr cdr recovery us m k).1.step (us k) cpr cdr recovery).2.principal) :=
  rfl

lemma runLoan_zero_rates (P r pay : ℝ) (n : ℕ) (us : ℕ → ℝ) (recovery : ℝ)
    (hP : 0 < P) (hr : 0 < r) (hn : 0 < n) (hus : ∀ k, 0 ≤ us k)
    (hpayeq : pay = P * (r / 12) / (1 - (1 + r / 12) ^ (-(n : ℤ)))) :
    ∀ k,
      0 ≤ (runLoan 0 0 recovery us ⟨P, r, (n : ℤ), (n : ℤ), pay, true⟩ k).1.balance ∧
      (runLoan 0 0 recovery us ⟨P, r, (n : ℤ), (n : ℤ), pay, true⟩ k).2 =
        P - (runLoan 0 0 recovery us ⟨P, r, (n : ℤ), (n : ℤ), pay, true⟩ k).1.balance ∧
      ((runLoan 0 0 recovery us ⟨P, r, (n : ℤ), (n : ℤ), pay, true⟩ k).1.balance ≤ eps ∨
        ((runLoan 0 0 recovery us ⟨P, r, (n : ℤ), (n : ℤ), pay, true⟩ k).1.balance =
            annuityBalance P r pay k ∧
          (runLoan 0 0 recovery us ⟨P, r, (n : ℤ), (n : ℤ), pay, true⟩ k).1.remaining =
            (n : ℤ) - k ∧
          (runLoan 0 0 recovery us ⟨P, r, (n : ℤ), (n : ℤ), pay, true⟩ k).1.alive = true ∧
          (runLoan 0 0 recovery us ⟨P, r, (n : ℤ), (n : ℤ), pay, true⟩ k).1.rate = r ∧
          (runLoan 0 0 recovery us ⟨P, r, (n : ℤ), (n : ℤ), pay, true⟩ k).1.payment = pay ∧
          k < n)) := by
  intro k
  induction k with
  | zero =>
    refine ⟨hP.le, by show (0 : ℝ) = P - P; ring, Or.inr ⟨?_, ?_, rfl, rfl, rfl, hn⟩⟩
    · show P = annuityBalance P r pay 0
      rw [annuityBalance_zero]
    · show (n : ℤ) = (n : ℤ) - (0 : ℕ)
      simp
  | succ k ih =>
    obtain ⟨ih0, ih1, ih2⟩ := ih
    by_cases hBe : (runLoan 0 0 recovery us ⟨P, r, (n : ℤ), (n : ℤ), pay, true⟩ k).1.balance ≤ eps
    · have hstep := step_frozen
        (runLoan 0 0 recovery us ⟨P, r, (n : ℤ), (n : ℤ), pay, true⟩ k).1
        (us k) 0 0 recovery (Or.inr hBe)
      rw [runLoan_succ, hstep]
      refine ⟨ih0, ?_, Or.inl hBe⟩
      show (runLoan 0 0 recovery us ⟨P, r, (n : ℤ), (n : ℤ), pay, true⟩ k).2 + (0 : ℝ) =
        P - (runLoan 0 0 recovery us ⟨P, r, (n : ℤ), (n : ℤ), pay, true⟩ k).1.balance
      rw [add_zero]
      exact ih1
    · rcases ih2 with hle | hright
      · exact absurd hle hBe
      obtain ⟨hbal, hrem, halive, hrate, hpayf, hkn⟩ := hright
      have h1 : ¬((runLoan 0 0 recovery us ⟨P, r, (n : ℤ), (n : ℤ), pay, true⟩ k).1.alive = false ∨
          (runLoan 0 0 recovery us ⟨P, r, (n : ℤ), (n : ℤ), pay, true⟩ k).1.balance ≤ eps) := by
        rw [halive]
        simp only [not_or]
        exact ⟨by simp, hBe⟩
      have h2 : ¬(us k < monthlyHazard 0) := by
        rw [monthlyHazard_zero]
        exact not_lt.2 (hus k)
      have hstep := step_live_eq
        (runLoan 0 0 recovery us ⟨P, r, (n : ℤ), (n : ℤ), pay, true⟩ k).1
        (us k) 0 0 recovery h1 h2
      rw [monthlyHazard_zero, mul_zero, add_zero] at hstep
      rw [hrate, hpayf, hbal, hrem, halive] at hstep
      rw [min_eq_right (min_le_right _ _)] at hstep
      by_cases hc : pay - annuityBalance P r pay k * (r / 12) ≤ annuityBalance P r pay k
      · rw [min_eq_left hc] at hstep
        have hbal2 : annuityBalance P r pay k -
            (pay - annuityBalance P r pay k * (r / 12)) =
            annuityBalance P r pay (k + 1) := by
          rw [annuityBalance_succ P r pay k (ne_of_gt hr)]
          ring
        rw [runLoan_succ, hstep]
        refine ⟨?_, ?_, ?_⟩
        · show 0 ≤ annuityBalance P r pay k -
            (pay - annuityBalance P r pay k * (r / 12))
          linarith
        · show (runLoan 0 0 recovery us ⟨P, r, (n : ℤ), (n : ℤ), pay, true⟩ k).2 +
              (pay - annuityBalance P r pay k * (r / 12)) =
            P - (annuityBalance P r pay k -
              (pay - annuityBalance P r pay k * (r / 12)))
          rw [ih1, hbal]
          ring
        · by_cases hb2 : annuityBalance P r pay k -
              (pay - annuityBalance P r pay k * (r / 12)) ≤ eps
          · exact Or.inl hb2
          · right
            have hkn1 : k + 1 < n := by
              rcases Nat.lt_or_ge (k + 1) n with h | h
              · exact h
              · exfalso
                have hk1n : k + 1 = n := by omega
                apply hb2
                rw [hbal2, hk1n, hpayeq]
                rw [annuityBalance_term P r n hr hn]
                exact eps_pos.le
            refine ⟨?_, ?_, ?_, rfl, rfl, hkn1⟩
            · exact hbal2
            · show (n : ℤ) - (k : ℤ) - 1 = (n : ℤ) - ((k : ℕ) + 1 : ℕ)
              push_cast
              ring
            · show (if ((n : ℤ) - (k : ℤ) - 1 ≤ 0 ∨
                  annuityBalance P r pay k -
                    (pay - annuityBalance P r pay k * (r / 12)) ≤ eps) then false
                  else true) = true
              rw [if_neg (not_or.2 ⟨by omega, hb2⟩)]
      · rw [min_eq_right (le_of_lt (not_le.1 hc))] at hstep
        rw [runLoan_succ, hstep]
        refine ⟨?_, ?_, Or.inl ?_⟩
        · show 0 ≤ annuityBalance P r pay k - annuityBalance P r pay k
          simp
        · show (runLoan 0 0 recovery us ⟨P, r, (n : ℤ), (n : ℤ), pay, true⟩ k).2 +
              annuityBalance P r pay k =
            P - (annuityBalance P r pay k - annuityBalance P r pay k)
          rw [ih1, hbal]
          ring
        · show annuityBalance P r pay k - annuityBalance P r pay k ≤ eps
          simp [eps_pos.le]

/-- C1: for every loan created with positive principal, positive annual
rate and positive term, stepping the loan once per month with CPR = 0 and
CDR = 0 (any recovery value and any non-negative uniform draws) for its
full original term leaves the ending balance within epsilon of zero, and
the sum of the principal cashflows over those months equals the original
principal within epsilon. -/
theorem amortization_zero_rates (P r : ℝ) (n : ℕ) (recovery : ℝ) (us : ℕ → ℝ)
    (hP : 0 < P) (hr : 0 < r) (hn : 0 < n) (hus : ∀ k, 0 ≤ us k)
    (m : Mortgage) (hm : Mortgage.create P r n = some m) :
    |(runLoan 0 0 recovery us m n).1.balance| ≤ eps ∧
    |(runLoan 0 0 recovery us m n).2 - P| ≤ eps := by
  have h1x : (1 : ℝ) < 1 + r / 12 := by linarith
  have hlt : (1 + r / 12 : ℝ) ^ (-(n : ℤ)) < 1 :=
    zpow_lt_one_of_neg₀ h1x (by omega)
  have hcond : ¬((1 + r / 12 = 0 ∧ 0 < (n : ℤ)) ∨ annuityDenom r n = 0) := by
    rintro (⟨hc, -⟩ | hd)
    · linarith
    · rw [annuityDenom] at hd
      linarith
  rw [Mortgage.create, if_neg hcond] at hm
  have hmeq := Option.some.inj hm
  subst hmeq
  obtain ⟨hb0, hacc, hdisj⟩ := runLoan_zero_rates P r
    (P * (r / 12) / annuityDenom r n) n us recovery hP hr hn hus
    (by rw [annuityDenom]) n
  have hfin : (runLoan 0 0 recovery us
      ⟨P, r, (n : ℤ), (n : ℤ), P * (r / 12) / annuityDenom r n, true⟩ n).1.balance ≤ eps := by
    rcases hdisj with h | ⟨-, -, -, -, -, hkn⟩
    · exact h
    · exact absurd hkn (lt_irrefl n)
  constructor
  · rw [abs_le]
    constructor <;> linarith
  · rw [hacc, abs_le]
    constructor <;> linarith

/-- Witness for C1: a one-month loan of principal 100 at annual rate 12
amortizes to zero balance in one step and returns the full principal. -/
theorem amortization_zero_rates_witness :
    |(runLoan 0 0 0 (fun _ => 0)
        ⟨100, 12, ((1 : ℕ) : ℤ), ((1 : ℕ) : ℤ),
          100 * (12 / 12) / annuityDenom 12 ((1 : ℕ) : ℤ), true⟩ 1).1.balance| ≤ eps ∧
    |(runLoan 0 0 0 (fun _ => 0)
        ⟨100, 12, ((1 : ℕ) : ℤ), ((1 : ℕ) : ℤ),
          100 * (12 / 12) / annuityDenom 12 ((1 : ℕ) : ℤ), true⟩ 1).2 - 100| ≤ eps := by
  have hcond : ¬((1 + (12 : ℝ) / 12 = 0 ∧ 0 < ((1 : ℕ) : ℤ)) ∨
      annuityDenom 12 ((1 : ℕ) : ℤ) = 0) := by
    rintro (⟨hc, -⟩ | hd)
    · norm_num at hc
    · rw [annuityDenom] at hd
      norm_num at hd
  exact amortization_zero_rates 100 12 1 0 (fun _ => 0) (by norm_num) (by norm_num)
    (by norm_num) (fun k => le_refl 0) _
    (by rw [Mortgage.create, if_neg hcond])

end MbsSim
